import Mathlib

set_option maxHeartbeats 1000000

/-!
Verification of the Exam-Genie PDF extraction-and-chunking pipeline.

Shallow embedding of `src/lib/enhancedPdfProcessor.ts` (and, where that file
calls a helper whose definition only survives in the sibling revisions
`part_006`/`part_007` of the same module, that helper's body from there).

Text is modelled as `List Char` (JavaScript strings at code-unit granularity;
the source only manipulates ASCII-relevant whitespace and punctuation).
JavaScript numbers used for OCR confidences are modelled as `ℚ`; page numbers,
lengths and token counts are `Nat`.  A JavaScript array access `a[i]` that can
be out of range is modelled as `a[i]?` (`Option`), `undefined` being `none`.
-/

namespace PdfGenie

/-- The character class of the JavaScript regex `\s` (ASCII part), which is
also the set trimmed by `String.prototype.trim`. -/
def isWS (c : Char) : Bool :=
  c = ' ' || c = '\t' || c = '\n' || c = '\r' || c = '\x0b' || c = '\x0c'

/-- Drop trailing `\s` characters (the right half of JS `trim`). -/
def trimEnd : List Char → List Char
  | [] => []
  | c :: rest =>
    match trimEnd rest with
    | [] => if isWS c then [] else [c]
    | r :: rs => c :: r :: rs

/-- JS `s.trim()`: drop leading and trailing whitespace. -/
def trimChars (l : List Char) : List Char :=
  trimEnd (l.dropWhile isWS)

/-- `estimateTokens` (enhancedPdfProcessor.ts line 54):
`Math.ceil(text.length / 4)`. -/
def estimateTokens (l : List Char) : Nat :=
  (l.length + 3) / 4

/-- Index of the last `'\n'` in a list, if any. -/
def lastNlIdx : List Char → Option Nat
  | [] => none
  | c :: rest =>
    match lastNlIdx rest with
    | some j => some (j + 1)
    | none => if c = '\n' then some 0 else none

/-- Fuel-driven worker for splitting on the JS regex `/\n\s*\n/`.

A (leftmost, greedy) match of `/\n\s*\n/` at the current position exists iff
the current character is `'\n'` and the maximal whitespace run following it
contains another `'\n'`; the greedy `\s*` makes the match extend to the *last*
`'\n'` of that run.  The fuel argument (instantiated with the list length)
only makes the recursion structural; it is never exhausted. -/
def splitBlankF : Nat → List Char → List (List Char)
  | _, [] => [[]]
  | 0, l => [l]
  | fuel + 1, c :: rest =>
    if c = '\n' then
      match lastNlIdx (rest.takeWhile isWS) with
      | some j => [] :: splitBlankF fuel (rest.drop (j + 1))
      | none =>
        match splitBlankF fuel rest with
        | [] => [[c]]
        | p :: ps => (c :: p) :: ps
    else
      match splitBlankF fuel rest with
      | [] => [[c]]
      | p :: ps => (c :: p) :: ps

/-- JS `text.split(/\n\s*\n/)`. -/
def splitBlank (l : List Char) : List (List Char) :=
  splitBlankF l.length l

/-- `text.split(/\n\s*\n/).filter(p => p.trim().length > 0)` — the paragraph
list used by `chunkText` (line 88). -/
def paragraphsOf (t : List Char) : List (List Char) :=
  (splitBlank t).filter (fun p => !(trimChars p).isEmpty)

/-- Worker for JS `fullText.replace(/\s+/g, ' ')`: each maximal whitespace
run is replaced by a single space.  `prevWS` records whether the previous
character belonged to a whitespace run already replaced. -/
def collapseWSAux : Bool → List Char → List Char
  | _, [] => []
  | prevWS, c :: rest =>
    if isWS c then
      if prevWS then collapseWSAux true rest
      else ' ' :: collapseWSAux true rest
    else c :: collapseWSAux false rest

/-- The clean-up step `fullText.replace(/\s+/g, ' ').trim()`
(enhancedPdfProcessor.ts line 310). -/
def normalizeText (l : List Char) : List Char :=
  trimChars (collapseWSAux false l)

/-- `'digital' | 'ocr' | 'hybrid'` (the `extractionMethod` union type). -/
inductive ExtractionMethod where
  | digital
  | ocr
  | hybrid
deriving DecidableEq, Repr

/-- `EnhancedPDFChunk` (enhancedPdfProcessor.ts lines 16–24).  The optional
`heading` field is never written by the source and is omitted.  `pageStart`
and `pageEnd` are `Option Nat` because the source reads them from
`paragraphPageMap[..]`, which yields `undefined` (`none`) out of range. -/
structure EnhancedPDFChunk where
  content : List Char
  pageStart : Option Nat
  pageEnd : Option Nat
  tokenCount : Nat
  extractionMethod : ExtractionMethod
  confidence : Option ℚ
deriving DecidableEq, Repr

/-- The `'\n\n'` separator re-inserted between accumulated paragraphs. -/
def sepStr : List Char := ['\n', '\n']

/-- The chunk record pushed by `chunkText`: token count derived from the
content, extraction method always `'digital'`, no confidence. -/
def mkChunk (content : List Char) (ps pe : Option Nat) : EnhancedPDFChunk :=
  { content := content
    pageStart := ps
    pageEnd := pe
    tokenCount := estimateTokens content
    extractionMethod := .digital
    confidence := none }

/-- The loop of `chunkText` (enhancedPdfProcessor.ts lines 90–124).
`total` is `paragraphs.length`, `i` the loop index, `cur` the variable
`currentChunk` and `cs` the variable `chunkStart`. -/
def chunkTextGo (m : List Nat) (maxTokens : Nat) (total : Nat) :
    List (List Char) → Nat → List Char → Nat → List EnhancedPDFChunk
  | [], _i, cur, cs =>
    if cur.isEmpty then []
    else [mkChunk cur m[cs]? m[total - 1]?]
  | p :: rest, i, cur, cs =>
    let para := trimChars p
    let potential := if cur.isEmpty then para else cur ++ sepStr ++ para
    if maxTokens < estimateTokens potential && !cur.isEmpty then
      mkChunk cur m[cs]? m[i - 1]? ::
        chunkTextGo m maxTokens total rest (i + 1) para i
    else
      chunkTextGo m maxTokens total rest (i + 1) potential cs

/-- `chunkText` (enhancedPdfProcessor.ts lines 82–127), the revision wired
into `processEnhancedPDF`: greedy accumulation of trimmed paragraphs,
flushing when the tentative buffer exceeds `maxTokens` (default 2000), and no
validation whatsoever of `paragraphPageMap` against the paragraph count. -/
def chunkText (t : List Char) (m : List Nat) (maxTokens : Nat := 2000) :
    List EnhancedPDFChunk :=
  let paras := paragraphsOf t
  chunkTextGo m maxTokens paras.length paras 0 [] 0

/-- The loop of the `part_006` revision of `chunkText` (part_006 lines
113–150): identical greedy accumulation, except that each push is further
guarded by `currentChunk.trim().length > 0`. -/
def chunkTextCheckedGo (m : List Nat) (maxTokens : Nat) (total : Nat) :
    List (List Char) → Nat → List Char → Nat → List EnhancedPDFChunk
  | [], _i, cur, cs =>
    if !cur.isEmpty && !(trimChars cur).isEmpty then
      [mkChunk cur m[cs]? m[total - 1]?]
    else []
  | p :: rest, i, cur, cs =>
    let para := trimChars p
    let potential := if cur.isEmpty then para else cur ++ sepStr ++ para
    if maxTokens < estimateTokens potential && !cur.isEmpty then
      (if !(trimChars cur).isEmpty then [mkChunk cur m[cs]? m[i - 1]?] else [])
        ++ chunkTextCheckedGo m maxTokens total rest (i + 1) para i
    else
      chunkTextCheckedGo m maxTokens total rest (i + 1) potential cs

/-- The `part_006` revision of `chunkText` (part_006 lines 97–152): before
any chunk is produced it validates that `paragraphPageMap.length` equals the
paragraph count and throws (`Except.error`) on mismatch. -/
def chunkTextChecked (t : List Char) (m : List Nat) (maxTokens : Nat := 2000) :
    Except (List Char) (List EnhancedPDFChunk) :=
  let paras := paragraphsOf t
  if m.length ≠ paras.length then
    .error "paragraphPageMap length does not match paragraphs length.".toList
  else
    .ok (chunkTextCheckedGo m maxTokens paras.length paras 0 [] 0)

/-! ## Heading / topic extraction (`extractHeadings`, lines 59–79) -/

/-- `[A-Z]`. -/
def isUpperCh (c : Char) : Bool := 'A' ≤ c && c ≤ 'Z'

/-- `[a-z]`. -/
def isLowerCh (c : Char) : Bool := 'a' ≤ c && c ≤ 'z'

/-- `\d`. -/
def isDigitCh (c : Char) : Bool := '0' ≤ c && c ≤ '9'

/-- The body character class `[A-Za-z\s\d,:;\-]` of the title regex. -/
def isTitleBody (c : Char) : Bool :=
  isUpperCh c || isLowerCh c || isWS c || isDigitCh c ||
  c = ',' || c = ':' || c = ';' || c = '-'

/-- The regex `/^[A-Z][A-Za-z\s\d,:;\-]{0,80}$/`: an uppercase letter
followed by at most 80 characters of the body class, anchored. -/
def titleLike : List Char → Bool
  | [] => false
  | c :: rest => isUpperCh c && rest.length ≤ 80 && rest.all isTitleBody

/-- The regex `/[.?!]$/`: the line ends in `.`, `?` or `!`. -/
def endsInPunct (s : List Char) : Bool :=
  match s.getLast? with
  | some c => c = '.' || c = '?' || c = '!'
  | none => false

/-- The regex `/^\d+[.)]\s/`: one or more digits, then `.` or `)`, then a
whitespace character.  (The greedy `\d+` cannot backtrack usefully because a
digit never matches `[.)]`.) -/
def numberedHeading (s : List Char) : Bool :=
  let digits := s.takeWhile isDigitCh
  !digits.isEmpty &&
    match s.drop digits.length with
    | p :: w :: _ => (p = '.' || p = ')') && isWS w
    | _ => false

/-- ASCII lower-casing, for the `/i` regex flag. -/
def toLowerCh (c : Char) : Char :=
  if isUpperCh c then Char.ofNat (c.toNat + 32) else c

/-- Case-insensitive literal match at the start of `s`. -/
def startsWithCI (kw : List Char) (s : List Char) : Bool :=
  (s.take kw.length).map toLowerCh = kw

/-- The regexes `/^Chapter\s+\d+/i` and `/^Section\s+\d+/i` (with `kw` the
lower-cased literal): the keyword, at least one whitespace character, then a
digit. -/
def kwNumberHeading (kw : List Char) (s : List Char) : Bool :=
  startsWithCI kw s &&
    (let rest := s.drop kw.length
     let ws := rest.takeWhile isWS
     !ws.isEmpty &&
       match rest.drop ws.length with
       | d :: _ => isDigitCh d
       | [] => false)

def chapterKw : List Char := "chapter".toList

def sectionKw : List Char := "section".toList

/-- The body of the `for` loop of `extractHeadings` (lines 63–76): trim the
line, keep it when its length is in `(0, 100)` and it matches one of the
heading patterns. -/
def headingLineFilter (line : List Char) : Option (List Char) :=
  let t := trimChars line
  if 0 < t.length ∧ t.length < 100 ∧
      ((titleLike t ∧ ¬endsInPunct t) ∨ numberedHeading t ∨
        kwNumberHeading chapterKw t ∨ kwNumberHeading sectionKw t) then
    some t
  else none

/-- JS `text.split('\n')`. -/
def splitNl : List Char → List (List Char)
  | [] => [[]]
  | c :: rest =>
    if c = '\n' then [] :: splitNl rest
    else
      match splitNl rest with
      | [] => [[c]]
      | p :: ps => (c :: p) :: ps

/-- `[...new Set(xs)]`: duplicates removed, first occurrence kept, order of
first occurrences preserved.  `seen` are the values already emitted. -/
def dedupSeen (seen : List (List Char)) : List (List Char) → List (List Char)
  | [] => []
  | x :: rest =>
    if x ∈ seen then dedupSeen seen rest
    else x :: dedupSeen (x :: seen) rest

/-- `extractHeadings` (enhancedPdfProcessor.ts lines 59–79): collect trimmed
candidate lines, deduplicate preserving first-seen order, keep the first
30. -/
def extractHeadings (t : List Char) : List (List Char) :=
  (dedupSeen [] ((splitNl t).filterMap headingLineFilter)).take 30

/-! ## The processing pipeline (`processEnhancedPDF`, lines 178–384)

The browser-facing effects (pdf.js document loading, canvas rendering,
tesseract.js recognition, progress callbacks, wall-clock time) are abstracted
into per-page input data: each page carries the text of its digital text
layer (`pageText`, the joined `item.str` values) and the outcome OCR would
produce on its rendering (`ocrText`, `ocrConfidence`).  Whether OCR worker
initialization fails for this run is the flag `ocrInitFails`
(`createWorker` throwing).  With these inputs fixed, the loop of
`processEnhancedPDF` is deterministic and is embedded verbatim. -/

/-- The two `File` properties the source reads: `file.type` and `file.size`. -/
structure InputFile where
  mime : List Char
  size : Nat

/-- Abstraction of one PDF page: its digital text layer and the result OCR
recognition would yield on its rendering.  A `processPageWithOCR` failure
(caught, returning `{text: '', confidence: 0}`) is the case
`ocrText = []`. -/
structure PageData where
  pageText : List Char
  ocrText : List Char
  ocrConfidence : ℚ
deriving DecidableEq, Repr

/-- The local mutable state of `processEnhancedPDF` (lines 182–228). -/
structure LoopState where
  fullText : List Char
  hasDigitalText : Bool
  hasScannedContent : Bool
  totalConfidence : ℚ
  ocrPageCount : Nat
  ocrWorker : Bool
  ocrInitializationError : Option (List Char)
  ocrAttemptedOnDocument : Bool
  ocrSucceededOnAnyPage : Bool
  paragraphPageMap : List Nat
  warnings : List (List Char)
deriving Repr

def initState : LoopState :=
  { fullText := []
    hasDigitalText := false
    hasScannedContent := false
    totalConfidence := 0
    ocrPageCount := 0
    ocrWorker := false
    ocrInitializationError := none
    ocrAttemptedOnDocument := false
    ocrSucceededOnAnyPage := false
    paragraphPageMap := []
    warnings := [] }

/-- The warning/error message recorded when OCR initialization fails
(part_006 lines 221–224). -/
def ocrInitErrMsg : List Char :=
  "Failed to initialize OCR engine. OCR will be skipped for scanned pages.".toList

/-- `initializeOcrWorkerIfNeeded`.  The live `enhancedPdfProcessor.ts` calls
this helper (line 257) but its definition survives only in the `part_006`
(lines 212–226) and `part_007` (lines 219–240) revisions of the module, from
which this body is taken: a no-op once a worker exists or initialization has
already failed; otherwise mark the attempt, then either obtain the worker or
record the initialization error once, also as a warning. -/
def initializeOcrWorkerIfNeeded (ocrInitFails : Bool) (st : LoopState) :
    LoopState :=
  if !st.ocrWorker && !st.ocrInitializationError.isSome then
    if ocrInitFails then
      { st with
          ocrAttemptedOnDocument := true
          ocrInitializationError := some ocrInitErrMsg
          warnings := st.warnings ++ [ocrInitErrMsg] }
    else
      { st with ocrAttemptedOnDocument := true, ocrWorker := true }
  else st

/-- One iteration of the page loop (enhancedPdfProcessor.ts lines 231–295).
`pageText.trim().length > 50` selects the digital branch; otherwise the page
counts as scanned content and goes through OCR when the worker is
available. -/
def processPage (ocrInitFails : Bool) (st : LoopState) (pageNum : Nat)
    (pg : PageData) : LoopState :=
  if 50 < (trimChars pg.pageText).length then
    { st with
        fullText := st.fullText ++ pg.pageText ++ sepStr
        hasDigitalText := true
        paragraphPageMap := st.paragraphPageMap ++
          List.replicate (paragraphsOf pg.pageText).length pageNum }
  else
    let st1 := { st with hasScannedContent := true }
    let st2 := initializeOcrWorkerIfNeeded ocrInitFails st1
    if st2.ocrWorker && !st2.ocrInitializationError.isSome then
      if !(trimChars pg.ocrText).isEmpty then
        { st2 with
            fullText := st2.fullText ++ pg.ocrText ++ sepStr
            totalConfidence := st2.totalConfidence + pg.ocrConfidence
            ocrPageCount := st2.ocrPageCount + 1
            ocrSucceededOnAnyPage := true
            paragraphPageMap := st2.paragraphPageMap ++
              List.replicate (paragraphsOf pg.ocrText).length pageNum }
      else st2
    else st2

/-- The whole page loop `for (let pageNum = 1; ...)` over the document. -/
def runLoop (ocrInitFails : Bool) (pages : List PageData) : LoopState :=
  (List.enumFrom 1 pages).foldl
    (fun st p => processPage ocrInitFails st p.1 p.2) initState

/-- The stable error codes of `PDFProcessingError` raised by
`processEnhancedPDF`. -/
inductive ErrCode where
  | INVALID_FILE_TYPE
  | FILE_TOO_LARGE
  | OCR_INIT_FAILED_NO_TEXT
  | NO_TEXT_EXTRACTED_OCR_EMPTY
  | NO_TEXT_EXTRACTED
deriving DecidableEq, Repr

/-- `PDFProcessingError` (enhancedPdfProcessor.ts lines 42–51), reduced to
its machine-relevant payload: the stable code and the `recoverable` flag. -/
structure PdfError where
  code : ErrCode
  recoverable : Bool
deriving DecidableEq, Repr

/-- The `metadata` record of `EnhancedPDFResult` (lines 31–39), minus the
wall-clock `processingTime`. -/
structure ResultMetadata where
  hasDigitalText : Bool
  hasScannedContent : Bool
  ocrAttempted : Bool
  ocrSucceeded : Bool
  ocrConfidence : ℚ
  warnings : Option (List (List Char))
deriving Repr, Inhabited

/-- `EnhancedPDFResult` (enhancedPdfProcessor.ts lines 26–40). -/
structure EnhancedPDFResult where
  chunks : List EnhancedPDFChunk
  totalPages : Nat
  topics : List (List Char)
  fullText : List Char
  metadata : ResultMetadata
deriving Repr, Inhabited

/-- JS `hay.includes(needle)` on strings: substring containment. -/
def containsSub (needle : List Char) : List Char → Bool
  | [] => needle.isEmpty
  | c :: rest => needle.isPrefixOf (c :: rest) || containsSub needle rest

def pdfChars : List Char := "pdf".toList

/-- `processEnhancedPDF` (enhancedPdfProcessor.ts lines 178–384) as a pure
function of the file properties, the per-page data and the OCR
initialization outcome.  Classified `PDFProcessingError` throws become
`Except.error`. -/
def processEnhancedPDF (file : InputFile) (pages : List PageData)
    (ocrInitFails : Bool) : Except PdfError EnhancedPDFResult :=
  if !containsSub pdfChars file.mime then
    .error ⟨.INVALID_FILE_TYPE, false⟩
  else if 50 * 1024 * 1024 < file.size then
    .error ⟨.FILE_TOO_LARGE, false⟩
  else
    let st := runLoop ocrInitFails pages
    let fullText := normalizeText st.fullText
    if fullText.isEmpty && st.ocrInitializationError.isSome &&
        !st.hasDigitalText then
      .error ⟨.OCR_INIT_FAILED_NO_TEXT, false⟩
    else if fullText.isEmpty && !st.hasDigitalText && st.hasScannedContent &&
        !st.ocrInitializationError.isSome then
      .error ⟨.NO_TEXT_EXTRACTED_OCR_EMPTY, false⟩
    else if fullText.isEmpty then
      .error ⟨.NO_TEXT_EXTRACTED, false⟩
    else
      let topics := extractHeadings fullText
      let chunks := chunkText fullText st.paragraphPageMap
      let avgConfidence : ℚ :=
        if 0 < st.ocrPageCount then st.totalConfidence / st.ocrPageCount else 0
      .ok
        { chunks := chunks
          totalPages := pages.length
          topics := topics
          fullText := fullText
          metadata :=
            { hasDigitalText := st.hasDigitalText
              hasScannedContent := st.hasScannedContent
              ocrAttempted := st.ocrAttemptedOnDocument
              ocrSucceeded := st.ocrSucceededOnAnyPage
              ocrConfidence := avgConfidence
              warnings :=
                if st.warnings.isEmpty then none else some st.warnings } }

/-! ## Derived notions used to state the claims -/

/-- `sepStr ++ p` concatenated over a paragraph list: the tail of an
intercalation by the `'\n\n'` separator. -/
def tailJoin (ps : List (List Char)) : List Char :=
  (ps.map (fun p => sepStr ++ p)).flatten

/-- Intercalate the `'\n\n'` paragraph separator between the given pieces
(used to state round-trip reconstruction). -/
def joinParas : List (List Char) → List Char
  | [] => []
  | p :: ps => p ++ tailJoin ps

/-- A page is treated as scanned content when its digital text layer, once
trimmed, has at most 50 characters (the negation of the source's
`pageText.trim().length > 50`). -/
def isScanned (pg : PageData) : Bool :=
  (trimChars pg.pageText).length ≤ 50

/-- A page contributes OCR text to the run: OCR initialization did not fail,
the page took the scanned branch, and the recognized text is non-blank. -/
def contributes (ocrInitFails : Bool) (pg : PageData) : Bool :=
  !ocrInitFails && isScanned pg && !(trimChars pg.ocrText).isEmpty

/-- The OCR-contributing pages of a run, in order. -/
def contribPages (ocrInitFails : Bool) (pages : List PageData) :
    List PageData :=
  pages.filter (contributes ocrInitFails)

/-- What one page appends to the accumulated `fullText`. -/
def pageApp (ocrInitFails : Bool) (pg : PageData) : List Char :=
  if 50 < (trimChars pg.pageText).length then pg.pageText ++ sepStr
  else if contributes ocrInitFails pg then pg.ocrText ++ sepStr
  else []

/-- The OCR worker/error bookkeeping invariant maintained by the page loop:
a worker exists iff initialization was attempted and did not fail, and an
initialization error is recorded iff it was attempted and failed. -/
def WState (ocrInitFails : Bool) (st : LoopState) : Prop :=
  st.ocrWorker = (st.ocrAttemptedOnDocument && !ocrInitFails) ∧
  st.ocrInitializationError.isSome = (st.ocrAttemptedOnDocument && ocrInitFails)

/-! ## Concrete fixtures used by witnesses and counterexamples -/

def filePdf : InputFile := ⟨"application/pdf".toList, 1000⟩

def fileTxt : InputFile := ⟨"text/plain".toList, 1000⟩

def fileBig : InputFile := ⟨"application/pdf".toList, 50 * 1024 * 1024 + 1⟩

def digitalPageText : List Char :=
  "This is a long enough digital page text with more than fifty characters in it.".toList

/-- A page with a rich digital text layer (no OCR involved). -/
def digPage : PageData := ⟨digitalPageText, [], 0⟩

/-- A scanned page (empty text layer) whose OCR succeeds. -/
def scanPage1 : PageData := ⟨[], "Recognized text from page one.".toList, 80⟩

/-- A second scanned page whose OCR succeeds. -/
def scanPage2 : PageData := ⟨[], "Recognized text from page two.".toList, 90⟩

/-- A scanned page whose OCR yields text with confidence 0. -/
def scanPageZeroConf : PageData :=
  ⟨[], "Recognized text with zero confidence.".toList, 0⟩

/-- A scanned page on which OCR yields nothing. -/
def emptyScanPage : PageData := ⟨[], [], 0⟩

/-- The concrete result of a one-digital-page run. -/
def resDigital : EnhancedPDFResult :=
  ((processEnhancedPDF filePdf [digPage] false).toOption).getD default

/-- A concrete pipeline-normalized text with two original paragraphs. -/
def normSample : List Char :=
  normalizeText "Sample  text\n\nwith breaks".toList

/-- A text with numbered, all-caps and repeated heading lines. -/
def headingSample : List Char :=
  "1. Introduction\nINTRODUCTION TO ALGORITHMS\nsome body text here.\n1. Introduction".toList

/-- `true` iff the pipeline returned an artifact rather than throwing. -/
def runSucceeds (e : Except PdfError EnhancedPDFResult) : Bool :=
  match e with
  | .ok _ => true
  | .error _ => false

/-- A two-page scanned-only document on which OCR succeeds on both pages. -/
def pagesScan2 : List PageData := [scanPage1, scanPage2]

/-- The concrete result of the two-scanned-page run. -/
def resScan2 : EnhancedPDFResult :=
  ((processEnhancedPDF filePdf pagesScan2 false).toOption).getD default

/-- The concrete result of the zero-confidence OCR run. -/
def resZeroConf : EnhancedPDFResult :=
  ((processEnhancedPDF filePdf [scanPageZeroConf] false).toOption).getD
    default

/-! ## Whitespace and trimming lemmas -/

lemma trimEnd_sublist : ∀ l : List Char, (trimEnd l).Sublist l := by
  intro l
  induction l with
  | nil => simp [trimEnd]
  | cons a t ih =>
    cases h : trimEnd t with
    | nil =>
      by_cases hw : isWS a <;> simp [trimEnd, h, hw]
    | cons r rs =>
      rw [trimEnd, h]
      exact (h ▸ ih).cons₂ a

lemma mem_trimEnd {c : Char} {l : List Char} (h : c ∈ trimEnd l) : c ∈ l :=
  (trimEnd_sublist l).subset h

lemma mem_trimChars {c : Char} {l : List Char} (h : c ∈ trimChars l) :
    c ∈ l :=
  (List.dropWhile_sublist isWS).subset (mem_trimEnd h)

/-- A non-whitespace member of `l` survives `dropWhile isWS`. -/
lemma mem_dropWhile_of_not_ws {c : Char} {l : List Char}
    (hc : isWS c = false) (h : c ∈ l) : c ∈ l.dropWhile isWS := by
  induction l with
  | nil => simp at h
  | cons a t ih =>
    by_cases hw : isWS a
    · rw [List.dropWhile_cons_of_pos hw]
      rcases List.mem_cons.mp h with rfl | h'
      · rw [hw] at hc; cases hc
      · exact ih h'
    · rw [List.dropWhile_cons_of_neg hw]
      exact h

/-- A non-whitespace member of `l` survives `trimEnd`. -/
lemma mem_trimEnd_of_not_ws {c : Char} {l : List Char}
    (hc : isWS c = false) (h : c ∈ l) : c ∈ trimEnd l := by
  induction l with
  | nil => simp at h
  | cons a t ih =>
    rcases List.mem_cons.mp h with rfl | h'
    · cases ht : trimEnd t with
      | nil => simp [trimEnd, ht, hc]
      | cons r rs => simp [trimEnd, ht]
    · have hmem := ih h'
      cases ht : trimEnd t with
      | nil => rw [ht] at hmem; simp at hmem
      | cons r rs =>
        rw [ht] at hmem
        simp [trimEnd, ht, List.mem_cons.mp hmem]

/-- A non-whitespace member of `l` survives `trimChars`. -/
lemma mem_trimChars_of_not_ws {c : Char} {l : List Char}
    (hc : isWS c = false) (h : c ∈ l) : c ∈ trimChars l :=
  mem_trimEnd_of_not_ws hc (mem_dropWhile_of_not_ws hc h)

/-- `trim` returns the empty string only on all-whitespace input. -/
lemma not_ws_of_trimChars_eq_nil {l : List Char} (h : trimChars l = [])
    {c : Char} (hcl : c ∈ l) : isWS c = true := by
  by_contra hcw
  have := mem_trimChars_of_not_ws (Bool.not_eq_true _ ▸ hcw :
    isWS c = false) hcl
  rw [h] at this
  simp at this

lemma trimEnd_idem : ∀ l : List Char, trimEnd (trimEnd l) = trimEnd l := by
  intro l
  induction l with
  | nil => simp [trimEnd]
  | cons a t ih =>
    cases ht : trimEnd t with
    | nil =>
      by_cases hw : isWS a <;> simp [trimEnd, ht, hw]
    | cons r rs =>
      rw [ht] at ih
      rw [trimEnd, ht, trimEnd, ih]

/-- The head of a nonempty `trimEnd l` is the head of `l`. -/
lemma trimEnd_head {l : List Char} {c : Char} {r : List Char}
    (h : trimEnd l = c :: r) : l.head? = some c := by
  cases l with
  | nil => simp [trimEnd] at h
  | cons a t =>
    cases ht : trimEnd t with
    | nil =>
      rw [trimEnd, ht] at h
      by_cases hw : isWS a <;> simp [hw] at h
      simp [h.1]
    | cons r' rs' =>
      rw [trimEnd, ht] at h
      simp at h ⊢
      exact h.1

/-- The head of a nonempty `dropWhile isWS` result is not whitespace. -/
lemma dropWhile_head_not_ws {l : List Char} {c : Char} {r : List Char}
    (h : l.dropWhile isWS = c :: r) : isWS c = false := by
  induction l with
  | nil => simp at h
  | cons a t ih =>
    by_cases hw : isWS a
    · rw [List.dropWhile_cons_of_pos hw] at h
      exact ih h
    · rw [List.dropWhile_cons_of_neg hw] at h
      cases h
      simpa using hw

lemma trimChars_idem (l : List Char) :
    trimChars (trimChars l) = trimChars l := by
  unfold trimChars
  cases h : trimEnd (l.dropWhile isWS) with
  | nil => simp [trimEnd]
  | cons c r =>
    have hhead : (l.dropWhile isWS).head? = some c := trimEnd_head h
    have hnw : isWS c = false := by
      cases hd : l.dropWhile isWS with
      | nil => rw [hd] at hhead; simp at hhead
      | cons a t =>
        rw [hd] at hhead
        simp at hhead
        exact hhead ▸ dropWhile_head_not_ws hd
    rw [List.dropWhile_cons_of_neg (by simp [hnw])]
    rw [← h, trimEnd_idem]

/-! ## Splitting and normalization lemmas -/

/-- On newline-free input the blank-line split is the identity (one piece),
for any fuel. -/
lemma splitBlankF_no_nl : ∀ (l : List Char) (fuel : Nat), '\n' ∉ l →
    splitBlankF fuel l = [l] := by
  intro l
  induction l with
  | nil => intro fuel _; cases fuel <;> rfl
  | cons c rest ih =>
    intro fuel h
    have hc : ¬c = '\n' := fun hc => h (by simp [hc])
    have hrest : '\n' ∉ rest := fun hr => h (List.mem_cons_of_mem _ hr)
    cases fuel with
    | zero => rfl
    | succ fuel =>
      rw [splitBlankF, if_neg hc, ih fuel hrest]

lemma splitBlank_no_nl {l : List Char} (h : '\n' ∉ l) :
    splitBlank l = [l] :=
  splitBlankF_no_nl l l.length h

/-- On newline-free, trimmed-nonempty input the paragraph list is a single
paragraph: the whole text. -/
lemma paragraphsOf_no_nl {t : List Char} (h : '\n' ∉ t)
    (h2 : trimChars t ≠ []) : paragraphsOf t = [t] := by
  unfold paragraphsOf
  rw [splitBlank_no_nl h]
  simp [h2]

/-- Every whitespace character produced by the collapse step is a plain
space. -/
lemma collapseWS_ws_eq_space : ∀ (b : Bool) (l : List Char) (c : Char),
    c ∈ collapseWSAux b l → isWS c = true → c = ' ' := by
  intro b l
  induction l generalizing b with
  | nil => intro c hc; simp [collapseWSAux] at hc
  | cons a t ih =>
    intro c hc hw
    unfold collapseWSAux at hc
    by_cases ha : isWS a
    · rw [if_pos ha] at hc
      cases b with
      | true => exact ih true c (by simpa using hc) hw
      | false =>
        simp at hc
        rcases hc with rfl | hc'
        · rfl
        · exact ih true c hc' hw
    · rw [if_neg ha] at hc
      rcases List.mem_cons.mp hc with rfl | hc'
      · exact absurd hw ha
      · exact ih false c hc' hw

/-- The normalized text contains no newline. -/
lemma normalizeText_no_nl (u : List Char) : '\n' ∉ normalizeText u := by
  intro h
  have hmem : '\n' ∈ collapseWSAux false u := mem_trimChars h
  have := collapseWS_ws_eq_space false u '\n' hmem (by decide)
  cases this

/-- The normalized text is already trimmed. -/
lemma normalizeText_trimmed (u : List Char) :
    trimChars (normalizeText u) = normalizeText u :=
  trimChars_idem _

/-- A non-whitespace character of `l` survives the collapse step. -/
lemma mem_collapseWS_of_not_ws : ∀ (b : Bool) (l : List Char) (c : Char),
    isWS c = false → c ∈ l → c ∈ collapseWSAux b l := by
  intro b l
  induction l generalizing b with
  | nil => intro c _ h; simp at h
  | cons a t ih =>
    intro c hcw hc
    unfold collapseWSAux
    by_cases ha : isWS a
    · rw [if_pos ha]
      rcases List.mem_cons.mp hc with rfl | hc'
      · rw [ha] at hcw; cases hcw
      · cases b with
        | true => exact ih true c hcw hc'
        | false => exact List.mem_cons_of_mem _ (ih true c hcw hc')
    · rw [if_neg ha]
      rcases List.mem_cons.mp hc with rfl | hc'
      · exact List.mem_cons_self _ _
      · exact List.mem_cons_of_mem _ (ih false c hcw hc')

/-- If the accumulated text has any non-whitespace character, normalization
does not erase it. -/
lemma normalizeText_ne_nil {u : List Char} {c : Char} (hcw : isWS c = false)
    (hc : c ∈ u) : normalizeText u ≠ [] := by
  intro h
  have : c ∈ normalizeText u :=
    mem_trimChars_of_not_ws hcw (mem_collapseWS_of_not_ws false u c hcw hc)
  rw [h] at this
  simp at this

/-! ## Chunker lemmas -/

lemma isEmpty_false_of_ne {l : List Char} (h : l ≠ []) :
    l.isEmpty = false := by
  cases l with
  | nil => exact absurd rfl h
  | cons a t => rfl

lemma tailJoin_cons (p : List Char) (ps : List (List Char)) :
    tailJoin (p :: ps) = sepStr ++ p ++ tailJoin ps := by
  simp [tailJoin]

lemma joinParas_cons (p : List Char) (ps : List (List Char)) :
    joinParas (p :: ps) = p ++ tailJoin ps := rfl

/-- With a nonempty buffer, the chunker always emits at least one chunk. -/
lemma chunkTextGo_ne_nil (m : List Nat) (mx total : Nat) :
    ∀ (ps : List (List Char)) (i : Nat) (cur : List Char) (cs : Nat),
      cur ≠ [] → chunkTextGo m mx total ps i cur cs ≠ [] := by
  intro ps
  induction ps with
  | nil =>
    intro i cur cs hcur
    simp [chunkTextGo, isEmpty_false_of_ne hcur]
  | cons p rest ih =>
    intro i cur cs hcur
    have hemp := isEmpty_false_of_ne hcur
    by_cases hov : mx < estimateTokens (cur ++ (sepStr ++ trimChars p))
    · simp [chunkTextGo, hemp, hov]
    · simp [chunkTextGo, hemp, hov]
      exact ih (i + 1) (cur ++ (sepStr ++ trimChars p)) cs (by simp [hcur])

/-- Joining the emitted chunk contents with the paragraph separator yields
the buffer followed by the separator-joined trimmed remaining paragraphs. -/
lemma chunkTextGo_join (m : List Nat) (mx total : Nat) :
    ∀ (ps : List (List Char)) (i : Nat) (cur : List Char) (cs : Nat),
      cur ≠ [] → (∀ p ∈ ps, trimChars p ≠ []) →
      joinParas ((chunkTextGo m mx total ps i cur cs).map
        EnhancedPDFChunk.content) =
        cur ++ tailJoin (ps.map trimChars) := by
  intro ps
  induction ps with
  | nil =>
    intro i cur cs hcur _
    simp [chunkTextGo, isEmpty_false_of_ne hcur, joinParas, tailJoin, mkChunk]
  | cons p rest ih =>
    intro i cur cs hcur hps
    have hpara : trimChars p ≠ [] := hps p (List.mem_cons_self _ _)
    have hrest : ∀ q ∈ rest, trimChars q ≠ [] :=
      fun q hq => hps q (List.mem_cons_of_mem _ hq)
    have hemp := isEmpty_false_of_ne hcur
    by_cases hov : mx < estimateTokens (cur ++ (sepStr ++ trimChars p))
    · have hne := chunkTextGo_ne_nil m mx total rest (i + 1) (trimChars p) i
        hpara
      have hrec := ih (i + 1) (trimChars p) i hpara hrest
      cases hgo : chunkTextGo m mx total rest (i + 1) (trimChars p) i with
      | nil => exact absurd hgo hne
      | cons c cs' =>
        rw [hgo] at hrec
        rw [List.map_cons, joinParas_cons] at hrec
        simp [chunkTextGo, hemp, hov, hgo, joinParas_cons, tailJoin_cons,
          mkChunk, hrec]
    · have hih := ih (i + 1) (cur ++ (sepStr ++ trimChars p)) cs
        (by simp [hcur]) hrest
      simp [chunkTextGo, hemp, hov, hih, tailJoin_cons]

lemma paragraphsOf_trim_ne_nil {t p : List Char}
    (h : p ∈ paragraphsOf t) : trimChars p ≠ [] := by
  have := (List.mem_filter.mp h).2
  intro hnil
  rw [hnil] at this
  simp at this

/-- Round trip at the `chunkText` level: the chunk contents, separator
re-inserted, reconstruct the separator-joined trimmed paragraph list of the
input. -/
lemma chunkText_join (t : List Char) (m : List Nat) (mx : Nat) :
    joinParas ((chunkText t m mx).map EnhancedPDFChunk.content) =
      joinParas ((paragraphsOf t).map trimChars) := by
  unfold chunkText
  cases hp : paragraphsOf t with
  | nil => simp [chunkTextGo, joinParas]
  | cons p rest =>
    have hpara : trimChars p ≠ [] :=
      paragraphsOf_trim_ne_nil (hp ▸ List.mem_cons_self _ _)
    have hrest : ∀ q ∈ rest, trimChars q ≠ [] := fun q hq =>
      paragraphsOf_trim_ne_nil (hp ▸ List.mem_cons_of_mem _ hq)
    simp only [chunkTextGo, List.isEmpty_nil, if_true, Bool.not_true,
      Bool.and_false, if_pos rfl]
    rw [if_neg (by simp)]
    rw [chunkTextGo_join m mx (p :: rest).length rest 1 (trimChars p) 0
      hpara hrest]
    simp [joinParas_cons]

/-- On trimmed, newline-free, nonempty text, `chunkText` returns exactly one
chunk containing the whole text, whatever the map and token budget. -/
lemma chunkText_single {t : List Char} (h1 : trimChars t = t) (h2 : t ≠ [])
    (hnl : '\n' ∉ t) (m : List Nat) (mx : Nat) :
    chunkText t m mx = [mkChunk t m[0]? m[0]?] := by
  unfold chunkText
  have htne : trimChars t ≠ [] := by rw [h1]; exact h2
  rw [paragraphsOf_no_nl hnl htne]
  simp [chunkTextGo, h1, isEmpty_false_of_ne h2]

/-- The single chunk produced on pipeline-normalized text. -/
lemma chunkText_normalize {u : List Char} (h : normalizeText u ≠ [])
    (m : List Nat) (mx : Nat) :
    chunkText (normalizeText u) m mx =
      [mkChunk (normalizeText u) m[0]? m[0]?] :=
  chunkText_single (normalizeText_trimmed u) h (normalizeText_no_nl u) m mx

/-- Every chunk the chunker emits has its token count computed from its
content, is tagged `'digital'`, and carries no confidence. -/
lemma chunkTextGo_fields (m : List Nat) (mx total : Nat) :
    ∀ (ps : List (List Char)) (i : Nat) (cur : List Char) (cs : Nat),
      ∀ c ∈ chunkTextGo m mx total ps i cur cs,
        c.tokenCount = estimateTokens c.content ∧
        c.extractionMethod = ExtractionMethod.digital ∧
        c.confidence = none := by
  intro ps
  induction ps with
  | nil =>
    intro i cur cs c hc
    unfold chunkTextGo at hc
    by_cases hemp : cur.isEmpty
    · rw [if_pos hemp] at hc; simp at hc
    · rw [if_neg hemp] at hc
      simp at hc
      subst hc
      simp [mkChunk]
  | cons p rest ih =>
    intro i cur cs c hc
    unfold chunkTextGo at hc
    by_cases hcond : (mx < estimateTokens (if cur.isEmpty then trimChars p
        else cur ++ sepStr ++ trimChars p) && !cur.isEmpty) = true
    · rw [if_pos hcond] at hc
      rcases List.mem_cons.mp hc with rfl | hc'
      · simp [mkChunk]
      · exact ih (i + 1) (trimChars p) i c hc'
    · rw [if_neg hcond] at hc
      exact ih (i + 1) _ cs c hc

lemma chunkText_fields (t : List Char) (m : List Nat) (mx : Nat) :
    ∀ c ∈ chunkText t m mx,
      c.tokenCount = estimateTokens c.content ∧
      c.extractionMethod = ExtractionMethod.digital ∧
      c.confidence = none :=
  chunkTextGo_fields m mx (paragraphsOf t).length (paragraphsOf t) 0 [] 0

/-- Token-budget invariant of the accumulation loop: every emitted chunk is
within budget, or its content belongs to the set `A` containing the trimmed
remaining paragraphs (the buffer invariant). -/
lemma chunkTextGo_tokens (m : List Nat) (mx total : Nat)
    (A : List (List Char)) :
    ∀ (ps : List (List Char)) (i : Nat) (cur : List Char) (cs : Nat),
      (cur = [] ∨ estimateTokens cur ≤ mx ∨ cur ∈ A) →
      (∀ p ∈ ps, trimChars p ∈ A) →
      ∀ c ∈ chunkTextGo m mx total ps i cur cs,
        c.tokenCount ≤ mx ∨ c.content ∈ A := by
  intro ps
  induction ps with
  | nil =>
    intro i cur cs hinv _ c hc
    unfold chunkTextGo at hc
    by_cases hemp : cur.isEmpty
    · rw [if_pos hemp] at hc; simp at hc
    · rw [if_neg hemp] at hc
      simp at hc
      subst hc
      rcases hinv with rfl | h | h
      · simp at hemp
      · exact Or.inl (by simpa [mkChunk] using h)
      · exact Or.inr (by simpa [mkChunk] using h)
  | cons p rest ih =>
    intro i cur cs hinv hps c hc
    have hpA : trimChars p ∈ A := hps p (List.mem_cons_self _ _)
    have hrest : ∀ q ∈ rest, trimChars q ∈ A := fun q hq =>
      hps q (List.mem_cons_of_mem _ hq)
    unfold chunkTextGo at hc
    by_cases hcur : cur = []
    · subst hcur
      rw [if_neg (by simp)] at hc
      simp only [List.isEmpty_nil, if_true] at hc
      exact ih (i + 1) (trimChars p) cs (Or.inr (Or.inr hpA)) hrest c hc
    · have hemp := isEmpty_false_of_ne hcur
      by_cases hov : mx < estimateTokens (cur ++ (sepStr ++ trimChars p))
      · rw [if_pos (by simp [hemp, hov])] at hc
        rcases List.mem_cons.mp hc with rfl | hc'
        · rcases hinv with rfl | h | h
          · exact absurd rfl hcur
          · exact Or.inl (by simpa [mkChunk] using h)
          · exact Or.inr (by simpa [mkChunk] using h)
        · exact ih (i + 1) (trimChars p) i (Or.inr (Or.inr hpA)) hrest c hc'
      · rw [if_neg (by simp [hemp, hov])] at hc
        simp only [hemp, if_neg (by simp : ¬(false = true))] at hc
        have hle : estimateTokens (cur ++ sepStr ++ trimChars p) ≤ mx := by
          rw [List.append_assoc]
          exact Nat.le_of_not_lt hov
        exact ih (i + 1) (cur ++ sepStr ++ trimChars p) cs
          (Or.inr (Or.inl hle)) hrest c hc

/-- Token-budget property of `chunkText`: every chunk is within budget or is
a single trimmed paragraph of the input. -/
lemma chunkText_tokens (t : List Char) (m : List Nat) (mx : Nat) :
    ∀ c ∈ chunkText t m mx,
      c.tokenCount ≤ mx ∨ c.content ∈ (paragraphsOf t).map trimChars := by
  refine chunkTextGo_tokens m mx (paragraphsOf t).length _
    (paragraphsOf t) 0 [] 0 (Or.inl rfl) ?_
  intro p hp
  exact List.mem_map_of_mem trimChars hp

/-! ## Page-range lemmas -/

/-- From a non-decreasing map, `Option` accesses at ordered indices are
ordered. -/
lemma mono_get {m : List Nat} (hm : m.Pairwise (· ≤ ·)) {i j a b : Nat}
    (hij : i ≤ j) (ha : m[i]? = some a) (hb : m[j]? = some b) : a ≤ b := by
  rcases List.getElem?_eq_some_iff.mp ha with ⟨hi, rfl⟩
  rcases List.getElem?_eq_some_iff.mp hb with ⟨hj, rfl⟩
  rcases Nat.lt_or_ge i j with hlt | hge
  · exact List.pairwise_iff_getElem.mp hm i j hi hj hlt
  · have : i = j := Nat.le_antisymm hij hge
    subst this
    rfl

/-- With a nonempty buffer started at paragraph index `cs`, the first chunk
the loop emits starts at page `m[cs]?`. -/
lemma chunkTextGo_firstStart (m : List Nat) (mx total : Nat) :
    ∀ (ps : List (List Char)) (i : Nat) (cur : List Char) (cs : Nat)
      (c : EnhancedPDFChunk) (rest' : List EnhancedPDFChunk),
      cur ≠ [] → chunkTextGo m mx total ps i cur cs = c :: rest' →
      c.pageStart = m[cs]? := by
  intro ps
  induction ps with
  | nil =>
    intro i cur cs c rest' hcur hgo
    simp only [chunkTextGo, isEmpty_false_of_ne hcur] at hgo
    simp at hgo
    rw [← hgo.1]
    rfl
  | cons p rest ih =>
    intro i cur cs c rest' hcur hgo
    have hemp := isEmpty_false_of_ne hcur
    by_cases hov : mx < estimateTokens (cur ++ (sepStr ++ trimChars p))
    · simp only [chunkTextGo, hemp, Bool.not_false, Bool.and_true,
        decide_eq_true_eq] at hgo
      rw [if_pos (by simpa [List.append_assoc] using hov)] at hgo
      cases hgo
      rfl
    · simp only [chunkTextGo, hemp, Bool.not_false, Bool.and_true,
        decide_eq_true_eq] at hgo
      rw [if_neg (by simpa [List.append_assoc] using hov)] at hgo
      exact ih (i + 1) (cur ++ sepStr ++ trimChars p) cs c rest'
        (by simp [hcur]) hgo

/-- Page-provenance invariant of the chunk loop: on a non-decreasing map
covering all paragraph indices, every chunk has defined, ordered page
bounds, and consecutive chunks have non-decreasing page ranges. -/
lemma chunkTextGo_pages (m : List Nat) (mx total : Nat)
    (hm : m.Pairwise (· ≤ ·)) (hlen : total = m.length) :
    ∀ (ps : List (List Char)) (i : Nat) (cur : List Char) (cs : Nat),
      i + ps.length = total → cs ≤ i → (cur ≠ [] → cs < i) →
      (∀ p ∈ ps, trimChars p ≠ []) →
      (∀ c ∈ chunkTextGo m mx total ps i cur cs,
        ∃ a b, c.pageStart = some a ∧ c.pageEnd = some b ∧ a ≤ b) ∧
      List.Chain' (fun c₁ c₂ => ∃ a b, c₁.pageEnd = some a ∧
        c₂.pageStart = some b ∧ a ≤ b)
        (chunkTextGo m mx total ps i cur cs) := by
  intro ps
  induction ps with
  | nil =>
    intro i cur cs hi hcsi hcur _
    by_cases hc : cur = []
    · subst hc
      simp [chunkTextGo]
    · have hemp := isEmpty_false_of_ne hc
      have hcs : cs < total := by
        have := hcur hc
        omega
      have htot : 0 < total := Nat.pos_of_ne_zero (by omega)
      have hcsm : cs < m.length := hlen ▸ hcs
      have hlast : total - 1 < m.length := by omega
      refine ⟨?_, ?_⟩
      · intro c hcmem
        simp only [chunkTextGo, hemp] at hcmem
        simp at hcmem
        subst hcmem
        refine ⟨m[cs], m[total - 1], ?_, ?_, ?_⟩
        · simp [mkChunk, List.getElem?_eq_getElem hcsm]
        · simp [mkChunk, List.getElem?_eq_getElem hlast]
        · exact mono_get hm (by omega) (List.getElem?_eq_getElem hcsm)
            (List.getElem?_eq_getElem hlast)
      · simp [chunkTextGo, hemp]
  | cons p rest ih =>
    intro i cur cs hi hcsi hcur hps
    have hpara : trimChars p ≠ [] := hps p (List.mem_cons_self _ _)
    have hrest : ∀ q ∈ rest, trimChars q ≠ [] := fun q hq =>
      hps q (List.mem_cons_of_mem _ hq)
    have hi' : i + 1 + rest.length = total := by simp at hi; omega
    have hlt : i < total := by simp at hi; omega
    by_cases hc : cur = []
    · subst hc
      have hred : chunkTextGo m mx total (p :: rest) i [] cs =
          chunkTextGo m mx total rest (i + 1) (trimChars p) cs := by
        simp [chunkTextGo]
      rw [hred]
      exact ih (i + 1) (trimChars p) cs hi' (by omega) (fun _ => by omega)
        hrest
    · have hemp := isEmpty_false_of_ne hc
      have hcsi' : cs < i := hcur hc
      have hcsm : cs < m.length := by omega
      have him1 : i - 1 < m.length := by omega
      have him : i < m.length := by omega
      by_cases hov : mx < estimateTokens (cur ++ (sepStr ++ trimChars p))
      · have hred : chunkTextGo m mx total (p :: rest) i cur cs =
            mkChunk cur m[cs]? m[i - 1]? ::
              chunkTextGo m mx total rest (i + 1) (trimChars p) i := by
          simp [chunkTextGo, hemp, hov]
        obtain ⟨iha, ihb⟩ := ih (i + 1) (trimChars p) i hi' (by omega)
          (fun _ => by omega) hrest
        rw [hred]
        constructor
        · intro c hcmem
          rcases List.mem_cons.mp hcmem with rfl | hcm
          · exact ⟨m[cs], m[i - 1],
              by simp [mkChunk, List.getElem?_eq_getElem hcsm],
              by simp [mkChunk, List.getElem?_eq_getElem him1],
              mono_get hm (by omega) (List.getElem?_eq_getElem hcsm)
                (List.getElem?_eq_getElem him1)⟩
          · exact iha c hcm
        · cases hgo : chunkTextGo m mx total rest (i + 1) (trimChars p) i with
          | nil => simp
          | cons c' tl =>
            refine List.chain'_cons'.mpr ⟨?_, hgo ▸ ihb⟩
            intro y hy
            simp at hy
            subst hy
            have hstart := chunkTextGo_firstStart m mx total rest (i + 1)
              (trimChars p) i c' tl hpara hgo
            refine ⟨m[i - 1], m[i], ?_, ?_, ?_⟩
            · simp [mkChunk, List.getElem?_eq_getElem him1]
            · rw [hstart]
              exact List.getElem?_eq_getElem him
            · exact mono_get hm (by omega) (List.getElem?_eq_getElem him1)
                (List.getElem?_eq_getElem him)
      · have hred : chunkTextGo m mx total (p :: rest) i cur cs =
            chunkTextGo m mx total rest (i + 1)
              (cur ++ (sepStr ++ trimChars p)) cs := by
          simp [chunkTextGo, hemp, hov]
        rw [hred]
        exact ih (i + 1) (cur ++ (sepStr ++ trimChars p)) cs hi' (by omega)
          (fun _ => by omega) hrest

/-- `chunkText` page-range property: with a non-decreasing page map of the
right length, every chunk has defined ordered page bounds, and the chunk
sequence has non-decreasing page ranges. -/
lemma chunkText_pages (t : List Char) (m : List Nat) (mx : Nat)
    (hm : m.Pairwise (· ≤ ·))
    (hlen : m.length = (paragraphsOf t).length) :
    (∀ c ∈ chunkText t m mx,
      ∃ a b, c.pageStart = some a ∧ c.pageEnd = some b ∧ a ≤ b) ∧
    List.Chain' (fun c₁ c₂ => ∃ a b, c₁.pageEnd = some a ∧
      c₂.pageStart = some b ∧ a ≤ b) (chunkText t m mx) := by
  unfold chunkText
  exact chunkTextGo_pages m mx (paragraphsOf t).length hm hlen.symm
    (paragraphsOf t) 0 [] 0 (by simp) (Nat.le_refl 0)
    (fun h => absurd rfl h) (fun p hp => paragraphsOf_trim_ne_nil hp)

/-! ## Page-loop lemmas -/

lemma WState_init (f : Bool) : WState f initState := by
  simp [WState, initState]

/-- One page-loop step, characterized field by field under the worker/error
invariant. -/
lemma processPage_spec (f : Bool) (st : LoopState) (n : Nat) (pg : PageData)
    (h : WState f st) :
    WState f (processPage f st n pg) ∧
    (processPage f st n pg).fullText = st.fullText ++ pageApp f pg ∧
    (processPage f st n pg).hasDigitalText =
      (st.hasDigitalText || !isScanned pg) ∧
    (processPage f st n pg).hasScannedContent =
      (st.hasScannedContent || isScanned pg) ∧
    (processPage f st n pg).ocrAttemptedOnDocument =
      (st.ocrAttemptedOnDocument || isScanned pg) ∧
    (processPage f st n pg).ocrSucceededOnAnyPage =
      (st.ocrSucceededOnAnyPage || contributes f pg) ∧
    (processPage f st n pg).totalConfidence = st.totalConfidence +
      (if contributes f pg then pg.ocrConfidence else 0) ∧
    (processPage f st n pg).ocrPageCount = st.ocrPageCount +
      (if contributes f pg then 1 else 0) := by
  obtain ⟨hw, he⟩ := h
  by_cases hscan : 50 < (trimChars pg.pageText).length
  · have hsc : isScanned pg = false := by
      simp only [isScanned, decide_eq_false_iff_not]
      omega
    simp [processPage, hscan, pageApp, WState, hw, he, hsc, contributes]
  · have hsc : isScanned pg = true := by
      simp only [isScanned, decide_eq_true_eq]
      omega
    cases f with
    | true =>
      have hcontrib : contributes true pg = false := by
        simp [contributes]
      cases hatt : st.ocrAttemptedOnDocument with
      | true =>
        have hw' : st.ocrWorker = false := by rw [hw, hatt]; rfl
        have he' : st.ocrInitializationError.isSome = true := by
          rw [he, hatt]; rfl
        simp [processPage, hscan, pageApp, WState,
          initializeOcrWorkerIfNeeded, hw', he', hsc, hcontrib, hatt]
      | false =>
        have hw' : st.ocrWorker = false := by rw [hw, hatt]; rfl
        have he' : st.ocrInitializationError.isSome = false := by
          rw [he, hatt]; rfl
        simp [processPage, hscan, pageApp, WState,
          initializeOcrWorkerIfNeeded, hw', he', hsc, hcontrib, hatt]
    | false =>
      have hcontrib : contributes false pg =
          !(trimChars pg.ocrText).isEmpty := by
        simp [contributes, hsc]
      cases hatt : st.ocrAttemptedOnDocument with
      | true =>
        have hw' : st.ocrWorker = true := by rw [hw, hatt]; rfl
        have he' : st.ocrInitializationError.isSome = false := by
          rw [he, hatt]; rfl
        by_cases hocr : (trimChars pg.ocrText).isEmpty
        · simp [processPage, hscan, pageApp, WState,
            initializeOcrWorkerIfNeeded, hw', he', hsc, hcontrib, hatt, hocr]
        · simp [processPage, hscan, pageApp, WState,
            initializeOcrWorkerIfNeeded, hw', he', hsc, hcontrib, hatt, hocr]
      | false =>
        have hw' : st.ocrWorker = false := by rw [hw, hatt]; rfl
        have he' : st.ocrInitializationError.isSome = false := by
          rw [he, hatt]; rfl
        by_cases hocr : (trimChars pg.ocrText).isEmpty
        · simp [processPage, hscan, pageApp, WState,
            initializeOcrWorkerIfNeeded, hw', he', hsc, hcontrib, hatt, hocr]
        · simp [processPage, hscan, pageApp, WState,
            initializeOcrWorkerIfNeeded, hw', he', hsc, hcontrib, hatt, hocr]

/-- The page loop from an arbitrary invariant-satisfying state, field by
field. -/
lemma runLoop_from_spec (f : Bool) :
    ∀ (pages : List PageData) (k : Nat) (st : LoopState), WState f st →
      WState f ((List.enumFrom k pages).foldl
        (fun s p => processPage f s p.1 p.2) st) ∧
      ((List.enumFrom k pages).foldl
        (fun s p => processPage f s p.1 p.2) st).fullText =
        st.fullText ++ (pages.map (pageApp f)).flatten ∧
      ((List.enumFrom k pages).foldl
        (fun s p => processPage f s p.1 p.2) st).hasDigitalText =
        (st.hasDigitalText || pages.any (fun pg => !isScanned pg)) ∧
      ((List.enumFrom k pages).foldl
        (fun s p => processPage f s p.1 p.2) st).hasScannedContent =
        (st.hasScannedContent || pages.any isScanned) ∧
      ((List.enumFrom k pages).foldl
        (fun s p => processPage f s p.1 p.2) st).ocrAttemptedOnDocument =
        (st.ocrAttemptedOnDocument || pages.any isScanned) ∧
      ((List.enumFrom k pages).foldl
        (fun s p => processPage f s p.1 p.2) st).ocrSucceededOnAnyPage =
        (st.ocrSucceededOnAnyPage || pages.any (contributes f)) ∧
      ((List.enumFrom k pages).foldl
        (fun s p => processPage f s p.1 p.2) st).totalConfidence =
        st.totalConfidence +
          ((contribPages f pages).map PageData.ocrConfidence).sum ∧
      ((List.enumFrom k pages).foldl
        (fun s p => processPage f s p.1 p.2) st).ocrPageCount =
        st.ocrPageCount + (contribPages f pages).length := by
  intro pages
  induction pages with
  | nil =>
    intro k st hst
    simp [contribPages, hst]
  | cons pg rest ih =>
    intro k st hst
    obtain ⟨h1, h2, h3, h4, h5, h6, h7, h8⟩ := processPage_spec f st k pg hst
    have hfold : (List.enumFrom k (pg :: rest)).foldl
        (fun s p => processPage f s p.1 p.2) st =
        (List.enumFrom (k + 1) rest).foldl
        (fun s p => processPage f s p.1 p.2) (processPage f st k pg) := by
      simp [List.enumFrom]
    obtain ⟨g1, g2, g3, g4, g5, g6, g7, g8⟩ :=
      ih (k + 1) (processPage f st k pg) h1
    rw [hfold]
    refine ⟨g1, ?_, ?_, ?_, ?_, ?_, ?_, ?_⟩
    · rw [g2, h2]
      simp [List.append_assoc]
    · rw [g3, h3]
      simp [Bool.or_assoc]
    · rw [g4, h4]
      simp [Bool.or_assoc]
    · rw [g5, h5]
      simp [Bool.or_assoc]
    · rw [g6, h6]
      simp [Bool.or_assoc]
    · rw [g7, h7]
      by_cases hco : contributes f pg = true
      · simp [contribPages, List.filter_cons, hco, add_assoc]
      · simp only [Bool.not_eq_true] at hco
        simp [contribPages, List.filter_cons, hco]
    · rw [g8, h8]
      by_cases hco : contributes f pg = true
      · simp [contribPages, List.filter_cons, hco]
        omega
      · simp only [Bool.not_eq_true] at hco
        simp [contribPages, List.filter_cons, hco]

/-- The final loop state of a run, field by field. -/
lemma runLoop_spec (f : Bool) (pages : List PageData) :
    (runLoop f pages).fullText = (pages.map (pageApp f)).flatten ∧
    (runLoop f pages).hasDigitalText = pages.any (fun pg => !isScanned pg) ∧
    (runLoop f pages).hasScannedContent = pages.any isScanned ∧
    (runLoop f pages).ocrAttemptedOnDocument = pages.any isScanned ∧
    (runLoop f pages).ocrSucceededOnAnyPage = pages.any (contributes f) ∧
    (runLoop f pages).totalConfidence =
      ((contribPages f pages).map PageData.ocrConfidence).sum ∧
    (runLoop f pages).ocrPageCount = (contribPages f pages).length ∧
    (runLoop f pages).ocrInitializationError.isSome =
      (pages.any isScanned && f) := by
  obtain ⟨h1, h2, h3, h4, h5, h6, h7, h8⟩ :=
    runLoop_from_spec f pages 1 initState (WState_init f)
  have herr : (runLoop f pages).ocrInitializationError.isSome =
      (pages.any isScanned && f) := by
    have h12 := h1.2
    rw [h5] at h12
    simpa [runLoop, initState] using h12
  exact ⟨by simpa [runLoop, initState] using h2,
    by simpa [runLoop, initState] using h3,
    by simpa [runLoop, initState] using h4,
    by simpa [runLoop, initState] using h5,
    by simpa [runLoop, initState] using h6,
    by simpa [runLoop, initState] using h7,
    by simpa [runLoop, initState] using h8, herr⟩

/-! ## Pipeline result inversion -/

/-- What a successful `processEnhancedPDF` run tells us: the returned record
is assembled exactly from the loop state, with `fullText` the nonempty
normalized accumulated text and `chunks` its chunking (budget 2000) against
the loop's paragraph page map. -/
lemma process_ok_inv {fi : InputFile} {pages : List PageData} {f : Bool}
    {r : EnhancedPDFResult}
    (h : processEnhancedPDF fi pages f = .ok r) :
    r.fullText = normalizeText (runLoop f pages).fullText ∧
    r.fullText ≠ [] ∧
    r.chunks = chunkText r.fullText (runLoop f pages).paragraphPageMap ∧
    r.metadata.hasDigitalText = (runLoop f pages).hasDigitalText ∧
    r.metadata.hasScannedContent = (runLoop f pages).hasScannedContent ∧
    r.metadata.ocrAttempted = (runLoop f pages).ocrAttemptedOnDocument ∧
    r.metadata.ocrSucceeded = (runLoop f pages).ocrSucceededOnAnyPage ∧
    r.metadata.ocrConfidence =
      (if 0 < (runLoop f pages).ocrPageCount then
        (runLoop f pages).totalConfidence /
          ((runLoop f pages).ocrPageCount : ℚ)
      else 0) := by
  simp only [processEnhancedPDF] at h
  split at h
  · cases h
  · split at h
    · cases h
    · split at h
      · cases h
      · split at h
        · cases h
        · split at h
          · cases h
          · rename_i hc1 hc2 hc3 hc4 hc5
            injection h with h'
            subst h'
            refine ⟨rfl, ?_, rfl, rfl, rfl, rfl, rfl, rfl⟩
            intro hnil
            exact hc5 (by simpa using hnil)

/-! ## Claims -/

/-- **C2.** For every successful run of `processEnhancedPDF`, the
normalization step (collapsing every whitespace run, newlines included, to a
single space, then trimming) leaves `fullText` without blank-line paragraph
separators; consequently `chunkText`'s split yields exactly one paragraph
and the returned artifact contains exactly one chunk whose content is the
entire normalized `fullText`, regardless of document length or configured
token maximum. -/
theorem C2_normalized_single_chunk (fi : InputFile) (pages : List PageData)
    (f : Bool) (r : EnhancedPDFResult)
    (h : processEnhancedPDF fi pages f = .ok r) :
    '\n' ∉ r.fullText ∧
    paragraphsOf r.fullText = [r.fullText] ∧
    r.chunks.map EnhancedPDFChunk.content = [r.fullText] ∧
    r.chunks.length = 1 ∧
    ∀ (m : List Nat) (mx : Nat),
      (chunkText r.fullText m mx).map EnhancedPDFChunk.content =
        [r.fullText] := by
  obtain ⟨hft, hne, hchunks, -, -, -, -, -⟩ := process_ok_inv h
  have hfne : normalizeText (runLoop f pages).fullText ≠ [] := hft ▸ hne
  have hsingle : ∀ (m : List Nat) (mx : Nat), chunkText r.fullText m mx =
      [mkChunk r.fullText m[0]? m[0]?] := by
    intro m mx
    rw [hft]
    exact chunkText_normalize hfne m mx
  refine ⟨?_, ?_, ?_, ?_, ?_⟩
  · rw [hft]; exact normalizeText_no_nl _
  · rw [hft]
    refine paragraphsOf_no_nl (normalizeText_no_nl _) ?_
    rw [normalizeText_trimmed]
    exact hfne
  · rw [hchunks, hsingle _ _]
    simp [mkChunk]
  · rw [hchunks, hsingle _ _]
    rfl
  · intro m mx
    rw [hsingle m mx]
    simp [mkChunk]

theorem C2_normalized_single_chunk_witness :
    processEnhancedPDF filePdf [digPage] false = .ok resDigital ∧
    resDigital.chunks.map EnhancedPDFChunk.content = [resDigital.fullText] ∧
    resDigital.chunks.length = 1 :=
  ⟨rfl,
   (C2_normalized_single_chunk filePdf [digPage] false resDigital
     rfl).2.2.1,
   (C2_normalized_single_chunk filePdf [digPage] false resDigital
     rfl).2.2.2.1⟩

/-- **C3.** For every input text and parallel page map, concatenating the
chunk contents in order with the paragraph separator re-inserted
reconstructs the input text after paragraph-separator normalization
(trimmed paragraphs joined by the separator), in order, nothing dropped or
duplicated; in particular, on the pipeline's normalized text the chunks
reconstruct it exactly. -/
theorem C3_round_trip_reconstruction (t : List Char) (m : List Nat)
    (mx : Nat) :
    joinParas ((chunkText t m mx).map EnhancedPDFChunk.content) =
      joinParas ((paragraphsOf t).map trimChars) ∧
    ∀ u : List Char, t = normalizeText u → t ≠ [] →
      joinParas ((chunkText t m mx).map EnhancedPDFChunk.content) = t := by
  refine ⟨chunkText_join t m mx, ?_⟩
  intro u hu hne
  subst hu
  rw [chunkText_normalize hne m mx]
  simp [joinParas, tailJoin, mkChunk]

theorem C3_round_trip_reconstruction_witness :
    joinParas ((chunkText normSample [1] 1).map EnhancedPDFChunk.content) =
      joinParas ((paragraphsOf normSample).map trimChars) ∧
    joinParas ((chunkText normSample [1] 1).map EnhancedPDFChunk.content) =
      normSample :=
  ⟨(C3_round_trip_reconstruction normSample [1] 1).1,
   (C3_round_trip_reconstruction normSample [1] 1).2
     "Sample  text\n\nwith breaks".toList rfl (by decide)⟩

/-- **C1** (amended).  Only the `part_006` revision of `chunkText` validates
that the paragraph→page map length equals the paragraph count, raising a
defect-class error before producing any chunk; the `chunkText` wired into
`processEnhancedPDF` performs no validation (see the counterexample). -/
theorem C1_checked_revision_validates_map (t : List Char) (m : List Nat)
    (mx : Nat) (h : m.length ≠ (paragraphsOf t).length) :
    chunkTextChecked t m mx = .error
      "paragraphPageMap length does not match paragraphs length.".toList := by
  simp [chunkTextChecked, h]

theorem C1_checked_revision_validates_map_witness :
    ([] : List Nat).length ≠ (paragraphsOf "hello\n\nworld".toList).length ∧
    chunkTextChecked "hello\n\nworld".toList [] 2000 = .error
      "paragraphPageMap length does not match paragraphs length.".toList :=
  ⟨by decide,
   C1_checked_revision_validates_map "hello\n\nworld".toList [] 2000
     (by decide)⟩

/-- **C1** counterexample: the live `chunkText` chunks a mismatched map
without any error — here a two-paragraph text against an empty map yields a
chunk whose page fields are `undefined` (`none`). -/
theorem C1_live_chunker_skips_validation :
    ([] : List Nat).length ≠ (paragraphsOf "hello\n\nworld".toList).length ∧
    chunkText "hello\n\nworld".toList [] 2000 =
      [mkChunk "hello\n\nworld".toList none none] := by
  constructor
  · decide
  · decide

/-- **C4.** Every chunk's token count is `ceil(length/4)` of its content,
and every chunk either fits the configured budget or is a single trimmed
paragraph kept whole (never split, no error raised); through the pipeline
(budget 2000) at most one chunk can exceed the budget. -/
theorem C4_token_budget :
    (∀ (t : List Char) (m : List Nat) (mx : Nat),
      ∀ c ∈ chunkText t m mx,
        c.tokenCount = estimateTokens c.content ∧
        (c.tokenCount ≤ mx ∨
          c.content ∈ (paragraphsOf t).map trimChars)) ∧
    (∀ (fi : InputFile) (pages : List PageData) (f : Bool)
      (r : EnhancedPDFResult), processEnhancedPDF fi pages f = .ok r →
        (r.chunks.filter (fun c => 2000 < c.tokenCount)).length ≤ 1) := by
  constructor
  · intro t m mx c hc
    exact ⟨(chunkText_fields t m mx c hc).1, chunkText_tokens t m mx c hc⟩
  · intro fi pages f r h
    obtain ⟨hft, hne, hchunks, -, -, -, -, -⟩ := process_ok_inv h
    have hfne : normalizeText (runLoop f pages).fullText ≠ [] := hft ▸ hne
    have hone : r.chunks = [mkChunk r.fullText
        ((runLoop f pages).paragraphPageMap)[0]?
        ((runLoop f pages).paragraphPageMap)[0]?] := by
      rw [hchunks, hft]
      exact chunkText_normalize hfne _ _
    rw [hone]
    exact le_trans (List.length_filter_le _ _) (by simp)

theorem C4_token_budget_witness :
    mkChunk "aaaaa".toList (some 1) (some 1) ∈
      chunkText "aaaaa\n\nbbbbb".toList [1, 2] 1 ∧
    ((mkChunk "aaaaa".toList (some 1) (some 1)).tokenCount ≤ 1 ∨
      (mkChunk "aaaaa".toList (some 1) (some 1)).content ∈
        (paragraphsOf "aaaaa\n\nbbbbb".toList).map trimChars) ∧
    (resDigital.chunks.filter (fun c => 2000 < c.tokenCount)).length ≤ 1 :=
  ⟨by decide,
   (C4_token_budget.1 "aaaaa\n\nbbbbb".toList [1, 2] 1
     (mkChunk "aaaaa".toList (some 1) (some 1)) (by decide)).2,
   C4_token_budget.2 filePdf [digPage] false resDigital rfl⟩

/-- **C8.** For every text and every non-decreasing page map whose length
equals the paragraph count, every chunk has defined page bounds with
`pageStart ≤ pageEnd`, and successive chunks' page ranges are
non-decreasing (each chunk's start page is at least the previous chunk's
end page). -/
theorem C8_page_ranges_monotone (t : List Char) (m : List Nat) (mx : Nat)
    (hlen : m.length = (paragraphsOf t).length)
    (hmono : m.Pairwise (· ≤ ·)) :
    (∀ c ∈ chunkText t m mx,
      ∃ a b, c.pageStart = some a ∧ c.pageEnd = some b ∧ a ≤ b) ∧
    List.Chain' (fun c₁ c₂ => ∃ a b, c₁.pageEnd = some a ∧
      c₂.pageStart = some b ∧ a ≤ b) (chunkText t m mx) :=
  chunkText_pages t m mx hmono hlen

theorem C8_page_ranges_monotone_witness :
    ([1, 2] : List Nat).length =
      (paragraphsOf "aaaaa\n\nbbbbb".toList).length ∧
    List.Chain' (fun c₁ c₂ => ∃ a b, c₁.pageEnd = some a ∧
      c₂.pageStart = some b ∧ a ≤ b)
      (chunkText "aaaaa\n\nbbbbb".toList [1, 2] 1) :=
  ⟨by decide,
   (C8_page_ranges_monotone "aaaaa\n\nbbbbb".toList [1, 2] 1 (by decide)
     (by decide)).2⟩

/-- **C9.** `processEnhancedPDF` rejects invalid inputs before any document
loading: a MIME type not containing `pdf` raises non-recoverable
`INVALID_FILE_TYPE`; a size above 50 MB raises non-recoverable
`FILE_TOO_LARGE`; in both cases the result does not depend on the pages (no
page extraction occurs). -/
theorem C9_input_validation (fi : InputFile) (pages : List PageData)
    (f : Bool) :
    (containsSub pdfChars fi.mime = false →
      processEnhancedPDF fi pages f =
        .error ⟨.INVALID_FILE_TYPE, false⟩) ∧
    (containsSub pdfChars fi.mime = true → 50 * 1024 * 1024 < fi.size →
      processEnhancedPDF fi pages f = .error ⟨.FILE_TOO_LARGE, false⟩) ∧
    ((containsSub pdfChars fi.mime = false ∨ 50 * 1024 * 1024 < fi.size) →
      ∀ pages', processEnhancedPDF fi pages f =
        processEnhancedPDF fi pages' f) := by
  refine ⟨?_, ?_, ?_⟩
  · intro h
    simp [processEnhancedPDF, h]
  · intro h hs
    simp [processEnhancedPDF, h, hs]
  · rintro (h | h) pages'
    · simp [processEnhancedPDF, h]
    · by_cases hm : containsSub pdfChars fi.mime
      · simp [processEnhancedPDF, hm, h]
      · simp only [Bool.not_eq_true] at hm
        simp [processEnhancedPDF, hm]

theorem C9_input_validation_witness :
    containsSub pdfChars fileTxt.mime = false ∧
    processEnhancedPDF fileTxt [digPage] false =
      .error ⟨.INVALID_FILE_TYPE, false⟩ ∧
    50 * 1024 * 1024 < fileBig.size ∧
    processEnhancedPDF fileBig [digPage] false =
      .error ⟨.FILE_TOO_LARGE, false⟩ :=
  ⟨by decide,
   (C9_input_validation fileTxt [digPage] false).1 (by decide),
   by decide,
   (C9_input_validation fileBig [digPage] false).2.1 (by decide)
     (by decide)⟩

/-! ## Heading-extraction lemmas and C10 -/

lemma dedupSeen_sublist :
    ∀ (l seen : List (List Char)), (dedupSeen seen l).Sublist l := by
  intro l
  induction l with
  | nil => intro seen; simp [dedupSeen]
  | cons x rest ih =>
    intro seen
    unfold dedupSeen
    by_cases hx : x ∈ seen
    · rw [if_pos hx]
      exact (ih seen).cons x
    · rw [if_neg hx]
      exact (ih (x :: seen)).cons₂ x

lemma dedupSeen_not_mem_seen :
    ∀ (l seen : List (List Char)) (x : List Char),
      x ∈ dedupSeen seen l → x ∉ seen := by
  intro l
  induction l with
  | nil => intro seen x hx; simp [dedupSeen] at hx
  | cons y rest ih =>
    intro seen x hx
    unfold dedupSeen at hx
    by_cases hy : y ∈ seen
    · rw [if_pos hy] at hx
      exact ih seen x hx
    · rw [if_neg hy] at hx
      rcases List.mem_cons.mp hx with rfl | hx'
      · exact hy
      · intro hxs
        exact ih (y :: seen) x hx' (List.mem_cons_of_mem _ hxs)

lemma dedupSeen_nodup :
    ∀ (l seen : List (List Char)), (dedupSeen seen l).Nodup := by
  intro l
  induction l with
  | nil => intro seen; simp [dedupSeen]
  | cons y rest ih =>
    intro seen
    unfold dedupSeen
    by_cases hy : y ∈ seen
    · rw [if_pos hy]
      exact ih seen
    · rw [if_neg hy]
      refine List.nodup_cons.mpr ⟨?_, ih (y :: seen)⟩
      intro hmem
      exact dedupSeen_not_mem_seen rest (y :: seen) y hmem
        (List.mem_cons_self _ _)

lemma headingLineFilter_some {line s : List Char}
    (h : headingLineFilter line = some s) :
    s = trimChars line ∧ 0 < s.length ∧ s.length < 100 ∧
      ((titleLike s = true ∧ endsInPunct s = false) ∨
        numberedHeading s = true ∨ kwNumberHeading chapterKw s = true ∨
        kwNumberHeading sectionKw s = true) := by
  simp only [headingLineFilter] at h
  split at h
  · rename_i hcond
    injection h with h'
    subst h'
    obtain ⟨h1, h2, h3⟩ := hcond
    refine ⟨rfl, h1, h2, ?_⟩
    rcases h3 with ⟨ht, hp⟩ | hn | hc | hs
    · exact Or.inl ⟨ht, Bool.not_eq_true _ ▸ hp⟩
    · exact Or.inr (Or.inl hn)
    · exact Or.inr (Or.inr (Or.inl hc))
    · exact Or.inr (Or.inr (Or.inr hs))
  · cases h

/-- **C10.** `extractHeadings` returns at most 30 strings, duplicates
removed, first-seen order preserved (the output is a subsequence of the
candidate stream), and every returned string is a trimmed input line of
length strictly between 0 and 100 matching at least one heading pattern
(title-like and not ending in `.?!`, numbered `\d+[.)]␣`, or
Chapter/Section + number, case-insensitively). -/
theorem C10_extract_headings (t : List Char) :
    (extractHeadings t).length ≤ 30 ∧
    (extractHeadings t).Nodup ∧
    List.Sublist (extractHeadings t)
      ((splitNl t).filterMap headingLineFilter) ∧
    ∀ s ∈ extractHeadings t, ∃ line, line ∈ splitNl t ∧
      s = trimChars line ∧ 0 < s.length ∧ s.length < 100 ∧
      ((titleLike s = true ∧ endsInPunct s = false) ∨
        numberedHeading s = true ∨ kwNumberHeading chapterKw s = true ∨
        kwNumberHeading sectionKw s = true) := by
  have hsub : List.Sublist (extractHeadings t)
      ((splitNl t).filterMap headingLineFilter) :=
    (List.take_sublist 30 _).trans (dedupSeen_sublist _ [])
  refine ⟨?_, ?_, hsub, ?_⟩
  · simp only [extractHeadings]
    exact List.length_take_le 30
      (dedupSeen [] ((splitNl t).filterMap headingLineFilter))
  · exact (List.take_sublist 30 _).nodup (dedupSeen_nodup _ [])
  · intro s hs
    obtain ⟨line, hline, hf⟩ := List.mem_filterMap.mp (hsub.subset hs)
    obtain ⟨h1, h2, h3, h4⟩ := headingLineFilter_some hf
    exact ⟨line, hline, h1, h2, h3, h4⟩

theorem C10_extract_headings_witness :
    "1. Introduction".toList ∈ extractHeadings headingSample ∧
    (∃ line, line ∈ splitNl headingSample ∧
      "1. Introduction".toList = trimChars line ∧
      0 < "1. Introduction".toList.length ∧
      "1. Introduction".toList.length < 100 ∧
      ((titleLike "1. Introduction".toList = true ∧
          endsInPunct "1. Introduction".toList = false) ∨
        numberedHeading "1. Introduction".toList = true ∨
        kwNumberHeading chapterKw "1. Introduction".toList = true ∨
        kwNumberHeading sectionKw "1. Introduction".toList = true)) :=
  ⟨by decide,
   (C10_extract_headings headingSample).2.2.2 "1. Introduction".toList
     (by decide)⟩

/-! ## Confidence and full-text lemmas -/

lemma trimChars_nil_of_all_ws {l : List Char}
    (h : ∀ c ∈ l, isWS c = true) : trimChars l = [] := by
  have hd : l.dropWhile isWS = [] := by
    rw [List.dropWhile_eq_nil_iff]
    exact h
  rw [trimChars, hd]
  rfl

/-- A string whose trim is nonempty contains a non-whitespace character. -/
lemma exists_not_ws_of_trim_ne_nil {l : List Char} (h : trimChars l ≠ []) :
    ∃ c ∈ l, isWS c = false := by
  by_contra hc
  push_neg at hc
  refine h (trimChars_nil_of_all_ws fun c hcl => ?_)
  have := hc c hcl
  cases hb : isWS c with
  | true => rfl
  | false => exact absurd hb this

/-- The mean of a list of values in `[0, 100]` (`0` on the empty list) lies
in `[0, 100]`. -/
lemma mean_in_range (xs : List ℚ) (h : ∀ x ∈ xs, 0 ≤ x ∧ x ≤ 100) :
    0 ≤ (if 0 < xs.length then xs.sum / (xs.length : ℚ) else 0) ∧
      (if 0 < xs.length then xs.sum / (xs.length : ℚ) else 0) ≤ 100 := by
  by_cases hl : 0 < xs.length
  · have hlen : (0 : ℚ) < (xs.length : ℚ) := by exact_mod_cast hl
    have hsum0 : 0 ≤ xs.sum := List.sum_nonneg fun x hx => (h x hx).1
    have hsum100 : xs.sum ≤ (xs.length : ℚ) * 100 := by
      calc xs.sum ≤ xs.length • (100 : ℚ) :=
            List.sum_le_card_nsmul xs 100 fun x hx => (h x hx).2
        _ = (xs.length : ℚ) * 100 := by simp [nsmul_eq_mul]
    rw [if_pos hl]
    refine ⟨div_nonneg hsum0 (le_of_lt hlen), ?_⟩
    rw [div_le_iff₀ hlen]
    calc xs.sum ≤ (xs.length : ℚ) * 100 := hsum100
      _ = 100 * (xs.length : ℚ) := mul_comm _ _
  · simp [if_neg hl]

lemma sum_pos_of_all_pos {xs : List ℚ} (h : ∀ x ∈ xs, 0 < x)
    (hne : xs ≠ []) : 0 < xs.sum := by
  cases xs with
  | nil => exact absurd rfl hne
  | cons x rest =>
    have hx : 0 < x := h x (List.mem_cons_self _ _)
    have hrest : 0 ≤ rest.sum :=
      List.sum_nonneg fun y hy => le_of_lt (h y (List.mem_cons_of_mem _ hy))
    calc (0 : ℚ) < x := hx
      _ ≤ x + rest.sum := le_add_of_nonneg_right hrest
      _ = (x :: rest).sum := (List.sum_cons).symm

lemma contributes_parts {f : Bool} {pg : PageData}
    (hc : contributes f pg = true) :
    f = false ∧ isScanned pg = true ∧
      (trimChars pg.ocrText).isEmpty = false := by
  simp only [contributes, Bool.and_eq_true, Bool.not_eq_true'] at hc
  exact ⟨hc.1.1, hc.1.2, hc.2⟩

/-- What a contributing page appends to the accumulated text. -/
lemma pageApp_contrib {f : Bool} {pg : PageData}
    (hc : contributes f pg = true) :
    pageApp f pg = pg.ocrText ++ sepStr := by
  obtain ⟨-, hsc, -⟩ := contributes_parts hc
  have hlen : ¬(50 < (trimChars pg.pageText).length) := by
    simp only [isScanned, decide_eq_true_eq] at hsc
    omega
  rw [pageApp, if_neg hlen, if_pos hc]

/-- If some page contributes OCR text, the normalized full text of the run
is nonempty. -/
lemma run_fullText_ne_nil {f : Bool} {pages : List PageData}
    {pg : PageData} (hmem : pg ∈ pages) (hc : contributes f pg = true) :
    normalizeText (runLoop f pages).fullText ≠ [] := by
  obtain ⟨-, -, hocr⟩ := contributes_parts hc
  have hocr' : trimChars pg.ocrText ≠ [] := by
    intro hnil
    rw [hnil] at hocr
    cases hocr
  obtain ⟨c, hcc, hcw⟩ := exists_not_ws_of_trim_ne_nil hocr'
  have hflat : (runLoop f pages).fullText =
      (pages.map (pageApp f)).flatten := (runLoop_spec f pages).1
  apply normalizeText_ne_nil hcw
  rw [hflat]
  refine List.mem_flatten.mpr ⟨pageApp f pg, List.mem_map_of_mem _ hmem, ?_⟩
  rw [pageApp_contrib hc]
  exact List.mem_append_left _ hcc

/-! ## C5: empty-text error classification -/

/-- **C5.** When input validation passes and the normalized accumulated
text is empty, `processEnhancedPDF` throws a non-recoverable error
classified by cause: `OCR_INIT_FAILED_NO_TEXT` when OCR initialization
failed and no digital text exists; `NO_TEXT_EXTRACTED_OCR_EMPTY` when there
is no digital text, scanned content is present and OCR ran but yielded
nothing; and the generic `NO_TEXT_EXTRACTED` otherwise — all three carrying
`recoverable = false`. -/
theorem C5_empty_text_classification (fi : InputFile)
    (pages : List PageData) (f : Bool)
    (hmime : containsSub pdfChars fi.mime = true)
    (hsize : fi.size ≤ 50 * 1024 * 1024)
    (hempty : normalizeText (runLoop f pages).fullText = []) :
    ((runLoop f pages).ocrInitializationError.isSome = true →
      (runLoop f pages).hasDigitalText = false →
      processEnhancedPDF fi pages f =
        .error ⟨.OCR_INIT_FAILED_NO_TEXT, false⟩) ∧
    ((runLoop f pages).hasDigitalText = false →
      (runLoop f pages).hasScannedContent = true →
      (runLoop f pages).ocrInitializationError.isSome = false →
      processEnhancedPDF fi pages f =
        .error ⟨.NO_TEXT_EXTRACTED_OCR_EMPTY, false⟩) ∧
    (¬((runLoop f pages).ocrInitializationError.isSome = true ∧
        (runLoop f pages).hasDigitalText = false) →
      ¬((runLoop f pages).hasDigitalText = false ∧
        (runLoop f pages).hasScannedContent = true ∧
        (runLoop f pages).ocrInitializationError.isSome = false) →
      processEnhancedPDF fi pages f =
        .error ⟨.NO_TEXT_EXTRACTED, false⟩) := by
  have hsz : ¬(50 * 1024 * 1024 < fi.size) := by omega
  refine ⟨?_, ?_, ?_⟩
  · intro he hd
    simp [processEnhancedPDF, hmime, hsz, hempty, he, hd]
  · intro hd hs he
    simp [processEnhancedPDF, hmime, hsz, hempty, he, hd, hs]
  · intro hA hB
    cases hd : (runLoop f pages).hasDigitalText with
    | true => simp [processEnhancedPDF, hmime, hsz, hempty, hd]
    | false =>
      cases he : (runLoop f pages).ocrInitializationError.isSome with
      | true => exact absurd ⟨he, hd⟩ hA
      | false =>
        cases hs : (runLoop f pages).hasScannedContent with
        | true => exact absurd ⟨hd, hs, he⟩ hB
        | false =>
          simp [processEnhancedPDF, hmime, hsz, hempty, hd, he, hs]

theorem C5_empty_text_classification_witness :
    containsSub pdfChars filePdf.mime = true ∧
    normalizeText (runLoop true [emptyScanPage]).fullText = [] ∧
    (runLoop true [emptyScanPage]).ocrInitializationError.isSome = true ∧
    (runLoop true [emptyScanPage]).hasDigitalText = false ∧
    processEnhancedPDF filePdf [emptyScanPage] true =
      .error ⟨.OCR_INIT_FAILED_NO_TEXT, false⟩ :=
  ⟨by decide, by decide, by decide, by decide,
   (C5_empty_text_classification filePdf [emptyScanPage] true (by decide)
     (by decide) (by decide)).1 (by decide) (by decide)⟩

/-! ## C6: scanned-only runs -/

/-- **C6** counterexample: a 2-page scanned-only run where OCR succeeds on
both pages returns chunks tagged `digital` with no confidence — chunk-level
OCR provenance (`ocr`/`hybrid` + confidence) is never recorded by
`chunkText`. -/
theorem C6_chunks_not_ocr_tagged :
    (processEnhancedPDF filePdf pagesScan2 false).map
      (fun r => (r.metadata.hasScannedContent, r.metadata.ocrSucceeded,
        r.chunks.map (fun c => (c.extractionMethod, c.confidence)))) =
      .ok (true, true, [(ExtractionMethod.digital, (none : Option ℚ))]) := by
  rfl

/-- **C6** (amended).  For a scanned-only document on which OCR succeeds on
every page, the run succeeds, the metadata has `hasScannedContent`,
`ocrAttempted` and `ocrSucceeded` all `true` and `ocrConfidence` in
`[0, 100]`; but every chunk is tagged `digital` with no confidence (the
claimed per-chunk OCR provenance is not recorded). -/
theorem C6_scanned_only_metadata (fi : InputFile) (pages : List PageData)
    (hmime : containsSub pdfChars fi.mime = true)
    (hsize : fi.size ≤ 50 * 1024 * 1024)
    (hne : pages ≠ [])
    (hall : ∀ pg ∈ pages, isScanned pg = true ∧ trimChars pg.ocrText ≠ [] ∧
      0 ≤ pg.ocrConfidence ∧ pg.ocrConfidence ≤ 100) :
    runSucceeds (processEnhancedPDF fi pages false) = true ∧
    ∀ r, processEnhancedPDF fi pages false = .ok r →
      r.metadata.hasScannedContent = true ∧
      r.metadata.ocrAttempted = true ∧
      r.metadata.ocrSucceeded = true ∧
      (0 ≤ r.metadata.ocrConfidence ∧ r.metadata.ocrConfidence ≤ 100) ∧
      ∀ c ∈ r.chunks, c.extractionMethod = ExtractionMethod.digital ∧
        c.confidence = none := by
  obtain ⟨pg0, hpg0⟩ := List.exists_mem_of_ne_nil pages hne
  have hcontrib : ∀ pg ∈ pages, contributes false pg = true := by
    intro pg hpg
    obtain ⟨h1, h2, -, -⟩ := hall pg hpg
    simp [contributes, h1, isEmpty_false_of_ne h2]
  have hfne := run_fullText_ne_nil hpg0 (hcontrib pg0 hpg0)
  have hsz : ¬(50 * 1024 * 1024 < fi.size) := by omega
  have hok : runSucceeds (processEnhancedPDF fi pages false) = true := by
    simp [processEnhancedPDF, hmime, hsz, isEmpty_false_of_ne hfne,
      runSucceeds]
  refine ⟨hok, ?_⟩
  intro r h
  obtain ⟨hft, hrn, hchunks, hdg, hsc, hat, hsu, hcf⟩ := process_ok_inv h
  obtain ⟨hflat, hdg', hsc', hat', hsu', htc', hcnt', herr'⟩ :=
    runLoop_spec false pages
  have hanyscan : pages.any isScanned = true :=
    List.any_eq_true.mpr ⟨pg0, hpg0, (hall pg0 hpg0).1⟩
  have hanycontrib : pages.any (contributes false) = true :=
    List.any_eq_true.mpr ⟨pg0, hpg0, hcontrib pg0 hpg0⟩
  have hfilter : contribPages false pages = pages :=
    List.filter_eq_self.mpr hcontrib
  have hmean := mean_in_range (pages.map PageData.ocrConfidence) (by
    intro x hx
    obtain ⟨pg, hpg, rfl⟩ := List.mem_map.mp hx
    exact ⟨(hall pg hpg).2.2.1, (hall pg hpg).2.2.2⟩)
  rw [List.length_map] at hmean
  have hconf_eq : r.metadata.ocrConfidence =
      (if 0 < pages.length then
        (pages.map PageData.ocrConfidence).sum / (pages.length : ℚ)
      else 0) := by
    rw [hcf, hcnt', htc', hfilter]
  refine ⟨?_, ?_, ?_, ?_, ?_⟩
  · rw [hsc, hsc', hanyscan]
  · rw [hat, hat', hanyscan]
  · rw [hsu, hsu', hanycontrib]
  · rw [hconf_eq]
    exact hmean
  · intro c hc
    rw [hchunks] at hc
    obtain ⟨-, hm, hcf'⟩ := chunkText_fields _ _ _ c hc
    exact ⟨hm, hcf'⟩

theorem C6_scanned_only_metadata_witness :
    runSucceeds (processEnhancedPDF filePdf pagesScan2 false) = true ∧
    resScan2.metadata.hasScannedContent = true ∧
    resScan2.metadata.ocrAttempted = true ∧
    resScan2.metadata.ocrSucceeded = true ∧
    (0 ≤ resScan2.metadata.ocrConfidence ∧
      resScan2.metadata.ocrConfidence ≤ 100) :=
  have hthm := C6_scanned_only_metadata filePdf pagesScan2 (by decide)
    (by decide) (by decide) (by decide)
  have hfields := hthm.2 resScan2 rfl
  ⟨hthm.1, hfields.1, hfields.2.1, hfields.2.2.1, hfields.2.2.2.1⟩

/-! ## C7: OCR confidence -/

/-- **C7** counterexample: one scanned page whose OCR succeeds with
confidence 0 yields `ocrSucceeded = true` yet `ocrConfidence = 0`, so
`ocrConfidence = 0` does not hold *exactly* when no page used OCR
successfully. -/
theorem C7_zero_confidence_counterexample :
    (processEnhancedPDF filePdf [scanPageZeroConf] false).map
      (fun r => (r.metadata.ocrSucceeded, r.metadata.ocrConfidence)) =
      .ok (true, 0) := by
  have hok : processEnhancedPDF filePdf [scanPageZeroConf] false =
      .ok resZeroConf := rfl
  obtain ⟨-, -, -, -, -, -, hsu, hcf⟩ := process_ok_inv hok
  obtain ⟨-, -, -, -, hsu', htc', hcnt', -⟩ :=
    runLoop_spec false [scanPageZeroConf]
  have hcontrib : contribPages false [scanPageZeroConf] =
      [scanPageZeroConf] := by decide
  have hsucc : resZeroConf.metadata.ocrSucceeded = true := by
    rw [hsu, hsu']
    decide
  have hconf : resZeroConf.metadata.ocrConfidence = 0 := by
    rw [hcf, hcnt', htc', hcontrib]
    simp [scanPageZeroConf]
  rw [hok]
  simp [Except.map, hsucc, hconf]

/-- **C7** (amended).  In every successful result `ocrConfidence` is the
mean of per-page confidences over the OCR-contributing pages only (0 when
none); it lies in `[0, 100]` whenever each contributing confidence does; it
is 0 whenever no page used OCR successfully; and, provided every
contributing page has strictly positive confidence, `ocrConfidence = 0`
conversely implies no page used OCR successfully (the unconditional
converse is refuted by the counterexample). -/
theorem C7_confidence_mean (fi : InputFile) (pages : List PageData)
    (f : Bool) (r : EnhancedPDFResult)
    (h : processEnhancedPDF fi pages f = .ok r) :
    r.metadata.ocrConfidence =
      (if 0 < (contribPages f pages).length then
        ((contribPages f pages).map PageData.ocrConfidence).sum /
          ((contribPages f pages).length : ℚ)
      else 0) ∧
    ((∀ pg ∈ contribPages f pages,
        0 ≤ pg.ocrConfidence ∧ pg.ocrConfidence ≤ 100) →
      0 ≤ r.metadata.ocrConfidence ∧ r.metadata.ocrConfidence ≤ 100) ∧
    (r.metadata.ocrSucceeded = false → r.metadata.ocrConfidence = 0) ∧
    ((∀ pg ∈ contribPages f pages, 0 < pg.ocrConfidence) →
      r.metadata.ocrConfidence = 0 → r.metadata.ocrSucceeded = false) := by
  obtain ⟨-, -, -, -, -, -, hsu, hcf⟩ := process_ok_inv h
  obtain ⟨-, -, -, -, hsu', htc', hcnt', -⟩ := runLoop_spec f pages
  have ha : r.metadata.ocrConfidence =
      (if 0 < (contribPages f pages).length then
        ((contribPages f pages).map PageData.ocrConfidence).sum /
          ((contribPages f pages).length : ℚ)
      else 0) := by
    rw [hcf, hcnt', htc']
  refine ⟨ha, ?_, ?_, ?_⟩
  · intro hb
    have hmean := mean_in_range
      ((contribPages f pages).map PageData.ocrConfidence) (by
        intro x hx
        obtain ⟨pg, hpg, rfl⟩ := List.mem_map.mp hx
        exact hb pg hpg)
    rw [List.length_map] at hmean
    rw [ha]
    exact hmean
  · intro hsf
    have hany : pages.any (contributes f) = false := by
      rw [← hsu', ← hsu]
      exact hsf
    have hnil : contribPages f pages = [] := by
      rw [contribPages, List.filter_eq_nil_iff]
      intro a ha'
      have := List.any_eq_false.mp hany a ha'
      simpa using this
    rw [ha, hnil]
    simp
  · intro hpos hcf0
    by_contra hsucc
    have hsu_t : r.metadata.ocrSucceeded = true := by
      cases hb : r.metadata.ocrSucceeded with
      | true => rfl
      | false => exact absurd hb hsucc
    have hany : pages.any (contributes f) = true := by
      rw [← hsu', ← hsu]
      exact hsu_t
    obtain ⟨pg, hpg, hc⟩ := List.any_eq_true.mp hany
    have hmemf : pg ∈ contribPages f pages :=
      List.mem_filter.mpr ⟨hpg, hc⟩
    have hnef : contribPages f pages ≠ [] := by
      intro hnil
      rw [hnil] at hmemf
      simp at hmemf
    have hlen : 0 < (contribPages f pages).length :=
      List.length_pos.mpr hnef
    have hsum : 0 <
        ((contribPages f pages).map PageData.ocrConfidence).sum := by
      apply sum_pos_of_all_pos
      · intro x hx
        obtain ⟨pg', hpg', rfl⟩ := List.mem_map.mp hx
        exact hpos pg' hpg'
      · simp [hnef]
    rw [ha, if_pos hlen] at hcf0
    have hlenq : (0 : ℚ) < ((contribPages f pages).length : ℚ) := by
      exact_mod_cast hlen
    exact lt_irrefl 0 (hcf0 ▸ div_pos hsum hlenq)

theorem C7_confidence_mean_witness :
    processEnhancedPDF filePdf [digPage] false = .ok resDigital ∧
    resDigital.metadata.ocrConfidence =
      (if 0 < (contribPages false [digPage]).length then
        ((contribPages false [digPage]).map PageData.ocrConfidence).sum /
          ((contribPages false [digPage]).length : ℚ)
      else 0) ∧
    (0 ≤ resDigital.metadata.ocrConfidence ∧
      resDigital.metadata.ocrConfidence ≤ 100) :=
  ⟨rfl,
   (C7_confidence_mean filePdf [digPage] false resDigital rfl).1,
   (C7_confidence_mean filePdf [digPage] false resDigital rfl).2.1
     (by decide)⟩

end PdfGenie
